import Mathlib

/-!
# Verification of the post initialization engine

A shallow embedding, in Lean 4, of the resumable PoST initialization engine
(`initialization/initialization.go`) and of the multi-provider partitioning
orchestrator (`cmd/postcli/main.go`), together with theorems settling the
behavioural claims about metadata verification, status classification, the
best-nonce search, resumable file writing, the extended nonce search, locking,
and provider range partitioning.

Machine integers are modelled as `Nat` with explicit reduction modulo `2^64`
(for Go `uint64` arithmetic) or `2^32` (for Go `uint32` conversion) at the
points where the Go code can overflow.  Byte slices are lists of `Nat`.
Hex / decimal rendering used by error messages is reproduced by small
formatting helpers.
-/

namespace Post

/-- Byte strings (Go `[]byte`): lists of byte values. -/
abbrev Bytes := List Nat

/-- `2^64`, the modulus of Go `uint64` arithmetic. -/
def U64 : Nat := 18446744073709551616

/-- `2^32`, the modulus of Go `uint32` arithmetic. -/
def U32 : Nat := 4294967296

/-- Go `bytes.Compare a b < 0`: lexicographic, byte-wise unsigned comparison
(a strict prefix is smaller). -/
def bytesLt : Bytes → Bytes → Bool
  | [], [] => false
  | [], _ :: _ => true
  | _ :: _, [] => false
  | a :: as, b :: bs =>
    if a < b then true
    else if b < a then false
    else bytesLt as bs

/-- Non-strict byte-wise comparison: `a` is not lexicographically after `b`. -/
def bytesLe (a b : Bytes) : Bool := !(bytesLt b a)

/-- Lower-case hex digit, as produced by Go `%x` formatting. -/
def hexDigit (n : Nat) : Char :=
  if n < 10 then Char.ofNat (48 + n) else Char.ofNat (87 + n)

/-- One byte in two lower-case hex digits (Go `%x`). -/
def hexByte (n : Nat) : String :=
  String.mk [hexDigit (n / 16 % 16), hexDigit (n % 16)]

/-- Go `fmt.Sprintf("%x", bytes)`. -/
def hexBytes (bs : Bytes) : String :=
  String.join (bs.map hexByte)

/-- The durable metadata record (`shared.PostMetadata`), one per data
directory. -/
structure PostMetadata where
  NodeId : Bytes
  CommitmentAtxId : Bytes
  LabelsPerUnit : Nat
  NumUnits : Nat
  MaxFileSize : Nat
  Nonce : Option Nat
  LastPosition : Option Nat
  deriving Repr, DecidableEq

/-- `shared.ConfigMismatchError`: names the offending field, the expected and
found values, and the data directory. -/
structure ConfigMismatchError where
  Param : String
  Expected : String
  Found : String
  DataDir : String
  deriving Repr, DecidableEq

/-- The configuration-relevant fields of an `Initializer` instance:
`nodeId`, `commitmentAtxId`, `cfg.LabelsPerUnit`, `opts.NumUnits`,
`opts.MaxFileSize` and `opts.DataDir`. -/
structure InitializerCfg where
  nodeId : Bytes
  commitmentAtxId : Bytes
  labelsPerUnit : Nat
  numUnits : Nat
  maxFileSize : Nat
  dataDir : String
  deriving Repr, DecidableEq

/-- `Initializer.verifyMetadata`: field-by-field compatibility check of a
requested configuration against the existing metadata record.  Checks, in
order: node id, commitment atx id, labels-per-unit, max-file-size, and then
fails when the requested `NumUnits` exceeds the stored one.  Returns the
`ConfigMismatchError` (Go returns it as an `error`; `none` is success). -/
def verifyMetadata (i : InitializerCfg) (m : PostMetadata) :
    Option ConfigMismatchError :=
  if i.nodeId ≠ m.NodeId then
    some ⟨"NodeId", hexBytes i.nodeId, hexBytes m.NodeId, i.dataDir⟩
  else if i.commitmentAtxId ≠ m.CommitmentAtxId then
    some ⟨"CommitmentAtxId", hexBytes i.commitmentAtxId,
      hexBytes m.CommitmentAtxId, i.dataDir⟩
  else if i.labelsPerUnit ≠ m.LabelsPerUnit then
    some ⟨"LabelsPerUnit", toString i.labelsPerUnit,
      toString m.LabelsPerUnit, i.dataDir⟩
  else if i.maxFileSize ≠ m.MaxFileSize then
    some ⟨"MaxFileSize", toString i.maxFileSize,
      toString m.MaxFileSize, i.dataDir⟩
  else if i.numUnits > m.NumUnits then
    some ⟨"NumUnits", ">= " ++ toString i.numUnits,
      toString m.NumUnits, i.dataDir⟩
  else
    none

/-- Lifecycle status reported by `Initializer.Status`. -/
inductive Status where
  | notStarted
  | started
  | initializing
  | completed
  | error
  deriving Repr, DecidableEq

/-- The inputs `Initializer.Status` reads: whether the exclusive lock is
currently held, the result of `diskState.NumLabelsWritten()` (`none` models
the error case), `opts.NumUnits`, `cfg.LabelsPerUnit`, and the retained
nonce (present in the structure because the claim quantifies over it; the
code never reads it in `Status`). -/
structure StatusInputs where
  lockHeld : Bool
  diskNumLabelsWritten : Option Nat
  numUnits : Nat
  labelsPerUnit : Nat
  nonce : Option Nat
  deriving Repr, DecidableEq

/-- The completion target computed by `Status`:
`uint64(opts.NumUnits) * uint64(cfg.LabelsPerUnit)` (wrapping `uint64`
multiplication). -/
def statusTarget (s : StatusInputs) : Nat :=
  s.numUnits * s.labelsPerUnit % U64

/-- `Initializer.Status`: `Initializing` when `TryLock` fails; otherwise
recomputes the written-label count from disk and classifies it against the
target.  Note the code returns `Completed` on `count == target` without
consulting the retained nonce. -/
def statusOf (s : StatusInputs) : Status :=
  if s.lockHeld then .initializing
  else
    match s.diskNumLabelsWritten with
    | none => .error
    | some n =>
      if n = statusTarget s then .completed
      else if n > 0 then .started
      else .notStarted

/-! ## Best-nonce search (initialization.go lines 490–509) -/

/-- A threshold-satisfying candidate reported by the work oracle: an absolute
label position together with its 16-byte label value. -/
structure Candidate where
  pos : Nat
  val : Bytes
  deriving Repr, DecidableEq

/-- The replacement test of line 501:
`init.nonceValue == nil || bytes.Compare(candidate, init.nonceValue) < 0`. -/
def nonceBetterVal : Option Bytes → Bytes → Bool
  | none, _ => true
  | some v, c => bytesLt c v

/-- One step of the best-nonce retention: replace the retained best when the
replacement test succeeds, otherwise keep it. -/
def nonceStep (best : Option Candidate) (c : Candidate) : Option Candidate :=
  if nonceBetterVal (best.map Candidate.val) c.val then some c else best

/-- The retained best nonce after a sequence of candidates observed in one
`Initialize` run (the run starts with no retained value: `nonceValue` is a
fresh in-memory field). -/
def nonceFold (cs : List Candidate) : Option Candidate :=
  cs.foldl nonceStep none

/-! ## Resumable label-file writer (initialization.go lines 414–534)

The work oracle is a function of the inclusive position range; `none` models
an oracle error.  Cancellation is modelled as a predicate on the position at
which the per-batch `ctx.Done()` check runs, and the success of each metadata
write as a predicate on the same position.  Label positions in a real run fit
in `uint64`; position arithmetic below that bound is exact, so it is modelled
on `Nat` directly (the places where Go wraparound is observable — the extended
search loop bound and the `uint32` flag narrowing — carry explicit `% 2^64` /
`% 2^32`). -/

/-- The result of `WorkOracle.Positions`: the flat label bytes of the range
(16 bytes per label) and, optionally, a threshold-satisfying position. -/
structure OracleRes where
  output : Bytes
  nonce : Option Nat
  deriving Repr, DecidableEq

/-- Observable effects of a file-writing run. -/
inductive Ev where
  | oracleCall (startPos endPos : Nat)
  | saveMeta (nonce : Option Nat) (val : Option Bytes) (ok : Bool)
  | write (bytes : Bytes)
  | truncate (numLabels : Nat)
  | flush
  deriving Repr, DecidableEq

/-- The in-memory and on-disk state touched by `initFile`: the retained
best-nonce value and position, the `numLabelsWritten` progress counter, the
bytes of the file being written, and the `Nonce` field of the last metadata
record that was successfully persisted. -/
structure InitState where
  nonceValue : Option Bytes
  nonce : Option Nat
  numLabelsWritten : Nat
  fileData : Bytes
  persistedNonce : Option Nat
  deriving Repr, DecidableEq

/-- Outcome of an `initFile` call. -/
inductive FileOut where
  | ok
  | cancelled
  | oracleErr
  | fuelOut
  deriving Repr, DecidableEq

/-- Lines 490–510: when the oracle reports a candidate position, slice its
16-byte value out of the batch output, and if the replacement test succeeds
replace the retained best (value and position) and immediately attempt a
metadata save; the save's error result is discarded (`init.saveMetadata()`
on line 508 is a bare statement), so a failed save (`saveOk = false`) leaves
the persisted record untouched but changes nothing else. -/
def applyCandidate (saveOk : Bool) (startPos : Nat) (res : OracleRes)
    (st : InitState) : InitState × List Ev :=
  match res.nonce with
  | none => (st, [])
  | some n =>
    let candidate := (res.output.drop ((n - startPos) * 16)).take 16
    if nonceBetterVal st.nonceValue candidate then
      let st1 := { st with nonceValue := some candidate, nonce := some n }
      let st2 := if saveOk then { st1 with persistedNonce := some n } else st1
      (st2, [Ev.saveMeta (some n) (some candidate) saveOk])
    else
      (st, [])

/-- The per-batch writing loop of lines 457–518, with the closing flush of
lines 520–527.  `pos` is `currentPosition`; the (possibly shrunk) batch size
is threaded to the next iteration exactly as the Go loop mutates its local
`batchSize`.  Cancellation is checked before each batch; on cancellation the
writer flushes and returns.  Fuel exhaustion (`fuelOut`) models a run that is
still in the loop when the process dies. -/
def initFileLoop (oracle : Nat → Nat → Option OracleRes)
    (cancel saveOk : Nat → Bool) (fileOffset fileNumLabels : Nat) :
    Nat → Nat → Nat → InitState → FileOut × InitState × List Ev
  | 0, _, _, st => (.fuelOut, st, [])
  | fuel + 1, batchSize, pos, st =>
    if pos < fileNumLabels then
      if cancel pos then (.cancelled, st, [Ev.flush])
      else
        let remaining := fileNumLabels - pos
        let batch := if remaining < batchSize then remaining else batchSize
        let startPos := fileOffset + pos
        let endPos := startPos + batch - 1
        match oracle startPos endPos with
        | none => (.oracleErr, st, [Ev.oracleCall startPos endPos])
        | some res =>
          let s1 := applyCandidate (saveOk pos) startPos res st
          let st2 := { s1.1 with
            fileData := s1.1.fileData ++ res.output,
            numLabelsWritten := fileOffset + pos + batch }
          let r := initFileLoop oracle cancel saveOk fileOffset fileNumLabels
            fuel batch (pos + batch) st2
          (r.1, r.2.1,
            Ev.oracleCall startPos endPos :: s1.2 ++ [Ev.write res.output] ++ r.2.2)
    else
      (.ok, st, [Ev.flush])

/-- `writer.NumLabelsWritten()`: the written-label count of a file, derived
from its byte size (16 bytes per label). -/
def numLabelsInFile (data : Bytes) : Nat := data.length / 16

/-- `Initializer.initFile` (lines 414–534): reads the file's current
written-label count and either reports it complete as-is, truncates it down
to the target, or resumes the batch loop from the current offset. -/
def initFile (oracle : Nat → Nat → Option OracleRes)
    (cancel saveOk : Nat → Bool) (fileOffset fileNumLabels batchSize fuel : Nat)
    (st : InitState) : FileOut × InitState × List Ev :=
  let written := numLabelsInFile st.fileData
  if written = fileNumLabels then
    (.ok, { st with numLabelsWritten := fileOffset + fileNumLabels }, [])
  else if written > fileNumLabels then
    (.ok, { st with
        fileData := st.fileData.take (fileNumLabels * 16),
        numLabelsWritten := fileOffset + fileNumLabels },
      [Ev.truncate fileNumLabels])
  else
    initFileLoop oracle cancel saveOk fileOffset fileNumLabels fuel batchSize
      written st

/-! ## Extended nonce search (initialization.go lines 281–326) -/

/-- `math.MaxUint64`, the loop bound of the extended search. -/
def MaxU64 : Nat := U64 - 1

/-- Outcome of the extended search. -/
inductive SearchOut where
  | nonceFound (n : Nat)
  | cancelled
  | oracleErr
  | noNonceFound
  | fuelOut
  deriving Repr, DecidableEq

/-- The in-memory state the extended search reads and writes: the
`lastPosition` checkpoint and the found nonce. -/
structure SearchState where
  lastPosition : Option Nat
  nonce : Option Nat
  deriving Repr, DecidableEq

/-- Result of the extended-search loop: the outcome, the final in-memory
state, the value of the loop index at return, and the list of loop indices
whose iteration was entered. -/
structure LoopRes where
  out : SearchOut
  state : SearchState
  finalIndex : Nat
  visited : List Nat
  deriving Repr, DecidableEq

/-- The nonce-search loop of lines 294–323:
`for i := *lastPosition; i < math.MaxUint64; i += batchSize`.  Each entered
iteration first stores `i` into the in-memory `lastPosition`, then checks
cancellation, then queries the oracle for `[i, i+batchSize-1]`; a reported
nonce is stored and ends the loop.  The index increment is `uint64` addition
(mod `2^64`).  No metadata save happens inside the loop body. -/
def searchLoop (oracle : Nat → Nat → Option OracleRes) (cancel : Nat → Bool)
    (batchSize : Nat) : Nat → Nat → SearchState → LoopRes
  | 0, i, st => ⟨.fuelOut, st, i, []⟩
  | fuel + 1, i, st =>
    if i < MaxU64 then
      let st1 : SearchState := { st with lastPosition := some i }
      if cancel i then ⟨.cancelled, st1, i, [i]⟩
      else
        match oracle i (i + batchSize - 1) with
        | none => ⟨.oracleErr, st1, i, [i]⟩
        | some res =>
          match res.nonce with
          | some n => ⟨.nonceFound n, { st1 with nonce := some n }, i, [i]⟩
          | none =>
            let r := searchLoop oracle cancel batchSize fuel
              ((i + batchSize) % U64) st1
            { r with visited := i :: r.visited }
    else
      ⟨.noNonceFound, st, i, []⟩

/-- Lines 286–289: the starting index of the extended search — the later of
`numLabels` and the recorded last search position. -/
def searchStart (lastPosition : Option Nat) (numLabels : Nat) : Nat :=
  match lastPosition with
  | none => numLabels
  | some p => if p < numLabels then numLabels else p

/-- Result of the extended search including its metadata persistence:
`persists` lists the `saveMetadata` snapshots written from the moment the
extended search begins. -/
structure SearchResult where
  out : SearchOut
  state : SearchState
  finalIndex : Nat
  visited : List Nat
  persists : List SearchState
  deriving Repr, DecidableEq

/-- The extended search of lines 281–326: bump `lastPosition` up to
`numLabels` if needed, run the loop, and let the deferred
`init.saveMetadata()` of line 292 persist the state once — on every return
path of the enclosing call, but not at all if the process dies inside the
loop (`fuelOut`). -/
def continueSearch (oracle : Nat → Nat → Option OracleRes) (cancel : Nat → Bool)
    (batchSize numLabels : Nat) (st : SearchState) (fuel : Nat) : SearchResult :=
  let start := searchStart st.lastPosition numLabels
  let r := searchLoop oracle cancel batchSize fuel start
    { st with lastPosition := some start }
  { out := r.out, state := r.state, finalIndex := r.finalIndex,
    visited := r.visited,
    persists := if r.out = .fuelOut then [] else [r.state] }

/-! ## Lifecycle locking (initialization.go lines 232–235, 355–359) -/

/-- Lock-contention errors. -/
inductive LockErr where
  | alreadyInitializing
  | cannotResetWhileInitializing
  deriving Repr, DecidableEq

/-- An initializer instance as seen by the lock: the `mtx` bit plus the rest
of its state, abstracted as `σ`. -/
structure LockedState (σ : Type) where
  locked : Bool
  inner : σ
  deriving Repr, DecidableEq

/-- The `TryLock` / deferred-`Unlock` wrapper shared by `Initialize` (lines
232–235) and `Reset` (lines 355–359): if the exclusive lock is held, return
the contention error at once with the state untouched; otherwise run the body
with the lock held and release the lock on every return path. -/
def tryLocked {σ α : Type} (err : LockErr) (body : σ → α × σ)
    (s : LockedState σ) : (LockErr ⊕ α) × LockedState σ :=
  if s.locked then (Sum.inl err, s)
  else
    let r := body s.inner
    (Sum.inr r.1, { locked := false, inner := r.2 })

/-- `Initializer.Initialize` entry: fail fast with `ErrAlreadyInitializing`
when the lock is held. -/
def InitializeCall {σ α : Type} (body : σ → α × σ) (s : LockedState σ) :
    (LockErr ⊕ α) × LockedState σ :=
  tryLocked .alreadyInitializing body s

/-- `Initializer.Reset` entry: fail fast with
`ErrCannotResetWhileInitializing` when the lock is held. -/
def ResetCall {σ α : Type} (body : σ → α × σ) (s : LockedState σ) :
    (LockErr ⊕ α) × LockedState σ :=
  tryLocked .cannotResetWhileInitializing body s

/-! ## Multi-provider partitioning (cmd/postcli/main.go lines 146–167) -/

/-- `each_Files := totalFiles / ProviderIDs_len` (Go integer division). -/
def eachFiles (totalFiles numProviders : Nat) : Nat :=
  totalFiles / numProviders

/-- `opts.FromFileIdx` assigned to provider `w`: `w * each_Files`. -/
def fromFileIdx (totalFiles numProviders w : Nat) : Int :=
  (w * eachFiles totalFiles numProviders : Nat)

/-- `opts.ToFileIdx` assigned to provider `w`: `totalFiles - 1` for the last
provider, `(w+1)*each_Files - 1` otherwise (Go `int` arithmetic, which can go
to `-1` for an empty range). -/
def toFileIdx (totalFiles numProviders w : Nat) : Int :=
  if w = numProviders - 1 then (totalFiles : Int) - 1
  else ((w + 1) * eachFiles totalFiles numProviders : Int) - 1

/-- File index `k` lies in provider `w`'s inclusive range. -/
def inPartition (totalFiles numProviders w k : Nat) : Prop :=
  fromFileIdx totalFiles numProviders w ≤ (k : Int) ∧
  (k : Int) ≤ toFileIdx totalFiles numProviders w

instance (F N w k : Nat) : Decidable (inPartition F N w k) := by
  unfold inPartition; infer_instance

/-! ## numUnits flag narrowing (cmd/postcli/main.go lines 55, 67) -/

/-- The Go conversion `uint32(v)` of a `uint64` value: reduction mod `2^32`. -/
def goUint32 (v : Nat) : Nat := v % U32

/-- `parseFlags` reads `-numUnits` as a `uint64` and assigns
`opts.NumUnits = uint32(*numUnits)` with no range check; this is the number
of units the engine is configured with. -/
def configuredNumUnits (v : Nat) : Nat := goUint32 v

/-! ## Observation helpers

Erasures used to state that behaviour is independent of metadata-save
success: `stripPersist` forgets the durably persisted nonce, `stripEv`
forgets the success flag of save events. -/

/-- Forget the persisted-nonce component of a state. -/
def stripPersist (st : InitState) : InitState :=
  { st with persistedNonce := none }

/-- Forget the success flag of a metadata-save event. -/
def stripEv : Ev → Ev
  | Ev.saveMeta n v _ => Ev.saveMeta n v true
  | e => e

/-! ## Concrete test vectors -/

/-- A requested configuration whose `numUnits` (2) exceeds the stored one. -/
def cfgA : InitializerCfg := ⟨[1, 2], [3, 4], 10, 2, 100, "/data"⟩

/-- An existing metadata record matching `cfgA` in every field except
`NumUnits` (1). -/
def metaA : PostMetadata := ⟨[1, 2], [3, 4], 10, 1, 100, none, none⟩

/-- Status inputs: lock free, written count equal to the target
(1 unit × 640 labels), and no retained nonce. -/
def statA : StatusInputs := ⟨false, some 640, 1, 640, none⟩

/-- Status inputs: lock free, written count 5 of a target of 6. -/
def statB : StatusInputs := ⟨false, some 5, 2, 3, some 7⟩

/-- An oracle that always returns one output byte and reports position 0. -/
def oracleB : Nat → Nat → Option OracleRes := fun _ _ => some ⟨[3], some 0⟩

/-- A context that is never cancelled. -/
def noCancel : Nat → Bool := fun _ => false

/-- Metadata saves that always fail. -/
def noSave : Nat → Bool := fun _ => false

/-- A fresh initializer state: nothing retained, nothing written. -/
def stInit : InitState := ⟨none, none, 0, [], none⟩

/-- A state whose file already holds exactly one label (16 bytes). -/
def stOne : InitState := ⟨none, none, 0, List.replicate 16 9, none⟩

/-- A state whose file holds two labels (32 bytes). -/
def stTwo : InitState := ⟨none, none, 0, List.replicate 32 9, none⟩

/-- An oracle that returns empty output and never reports a nonce. -/
def oracleN : Nat → Nat → Option OracleRes := fun _ _ => some ⟨[], none⟩

/-- A context cancelled exactly when the position reaches 120. -/
def cancelAt120 : Nat → Bool := fun p => p == 120

/-! # Theorems

Order lemmas about byte-wise lexicographic comparison, used by the
best-nonce development. -/

theorem bytesLt_irrefl (a : Bytes) : bytesLt a a = false := by
  induction a with
  | nil => rfl
  | cons x xs ih => simpa [bytesLt] using ih

theorem bytesLt_cons {x y : Nat} {xs ys : Bytes} :
    bytesLt (x :: xs) (y :: ys) = true ↔
      x < y ∨ (x = y ∧ bytesLt xs ys = true) := by
  by_cases h1 : x < y
  · simp [bytesLt, h1]
  · by_cases h2 : y < x
    · have hne : x ≠ y := by omega
      simp [bytesLt, h1, h2, hne]
    · have hxy : x = y := by omega
      subst hxy
      simp [bytesLt, h1, h2]

theorem bytesLt_connex (a b : Bytes) :
    bytesLt a b = true ∨ bytesLt b a = true ∨ a = b := by
  induction a generalizing b with
  | nil =>
    cases b with
    | nil => right; right; rfl
    | cons y ys => left; rfl
  | cons x xs ih =>
    cases b with
    | nil => right; left; rfl
    | cons y ys =>
      rcases Nat.lt_trichotomy x y with h | h | h
      · left; exact bytesLt_cons.mpr (Or.inl h)
      · subst h
        rcases ih ys with h2 | h2 | h2
        · left; exact bytesLt_cons.mpr (Or.inr ⟨rfl, h2⟩)
        · right; left; exact bytesLt_cons.mpr (Or.inr ⟨rfl, h2⟩)
        · right; right; rw [h2]
      · right; left; exact bytesLt_cons.mpr (Or.inl h)

theorem bytesLt_trans {a b c : Bytes} (h1 : bytesLt a b = true)
    (h2 : bytesLt b c = true) : bytesLt a c = true := by
  induction a generalizing b c with
  | nil =>
    cases b with
    | nil => simp [bytesLt] at h1
    | cons y ys =>
      cases c with
      | nil => simp [bytesLt] at h2
      | cons z zs => rfl
  | cons x xs ih =>
    cases b with
    | nil => simp [bytesLt] at h1
    | cons y ys =>
      cases c with
      | nil => simp [bytesLt] at h2
      | cons z zs =>
        rcases bytesLt_cons.mp h1 with hxy | ⟨hxy, hrest1⟩ <;>
          rcases bytesLt_cons.mp h2 with hyz | ⟨hyz, hrest2⟩
        · exact bytesLt_cons.mpr (Or.inl (by omega))
        · exact bytesLt_cons.mpr (Or.inl (by omega))
        · exact bytesLt_cons.mpr (Or.inl (by omega))
        · exact bytesLt_cons.mpr (Or.inr ⟨by omega, ih hrest1 hrest2⟩)

theorem bytesLt_asymm {a b : Bytes} (h : bytesLt a b = true) :
    bytesLt b a = false := by
  by_contra hc
  have hba : bytesLt b a = true := by
    cases hval : bytesLt b a with
    | false => exact absurd hval hc
    | true => rfl
  have := bytesLt_trans h hba
  rw [bytesLt_irrefl] at this
  exact Bool.noConfusion this

theorem bytesLe_refl (a : Bytes) : bytesLe a a = true := by
  simp [bytesLe, bytesLt_irrefl]

theorem bytesLe_antisymm {a b : Bytes} (h1 : bytesLe a b = true)
    (h2 : bytesLe b a = true) : a = b := by
  simp [bytesLe] at h1 h2
  rcases bytesLt_connex a b with h | h | h
  · rw [h] at h2; exact Bool.noConfusion h2
  · rw [h] at h1; exact Bool.noConfusion h1
  · exact h

theorem bytesLe_trans {a b c : Bytes} (h1 : bytesLe a b = true)
    (h2 : bytesLe b c = true) : bytesLe a c = true := by
  simp only [bytesLe, Bool.not_eq_eq_eq_not, Bool.not_true] at h1 h2 ⊢
  cases hca : bytesLt c a with
  | false => rfl
  | true =>
    exfalso
    rcases bytesLt_connex b a with h | h | h
    · rw [h] at h1; exact Bool.noConfusion h1
    · have hcb := bytesLt_trans hca h
      rw [hcb] at h2; exact Bool.noConfusion h2
    · subst h; rw [hca] at h2; exact Bool.noConfusion h2

theorem bytesLt_le {a b : Bytes} (h : bytesLt a b = true) :
    bytesLe a b = true := by
  simp [bytesLe, bytesLt_asymm h]

/-! ## C1 — metadata verification -/

/-- C1 counterexample: with node id, commitment reference, labels-per-unit
and max-file-size all equal and the requested `num_units` (2) strictly
greater than the stored value (1), the claim says verification succeeds, but
`verifyMetadata` rejects the request. -/
theorem verifyMetadata_claim_cex :
    cfgA.numUnits > metaA.NumUnits ∧
    cfgA.nodeId = metaA.NodeId ∧
    cfgA.commitmentAtxId = metaA.CommitmentAtxId ∧
    cfgA.labelsPerUnit = metaA.LabelsPerUnit ∧
    cfgA.maxFileSize = metaA.MaxFileSize ∧
    verifyMetadata cfgA metaA ≠ none := by
  refine ⟨by decide, rfl, rfl, rfl, rfl, by decide⟩

/-- C1 (amended): metadata verification succeeds if and only if the node id,
commitment reference, labels-per-unit and max-file-size are all equal and the
requested `num_units` is less than or equal to the stored value; a request
whose `num_units` is strictly greater is rejected with a `ConfigMismatch`
error naming the `NumUnits` field, its expected value, its found value, and
the directory. -/
theorem verifyMetadata_characterization (i : InitializerCfg)
    (m : PostMetadata) :
    (verifyMetadata i m = none ↔
      i.nodeId = m.NodeId ∧ i.commitmentAtxId = m.CommitmentAtxId ∧
      i.labelsPerUnit = m.LabelsPerUnit ∧ i.maxFileSize = m.MaxFileSize ∧
      i.numUnits ≤ m.NumUnits) ∧
    (i.nodeId = m.NodeId → i.commitmentAtxId = m.CommitmentAtxId →
      i.labelsPerUnit = m.LabelsPerUnit → i.maxFileSize = m.MaxFileSize →
      m.NumUnits < i.numUnits →
      verifyMetadata i m =
        some ⟨"NumUnits", ">= " ++ toString i.numUnits,
          toString m.NumUnits, i.dataDir⟩) := by
  constructor
  · unfold verifyMetadata
    split_ifs with h1 h2 h3 h4 h5 <;> simp_all
  · intro e1 e2 e3 e4 h5
    unfold verifyMetadata
    rw [if_neg (by simp [e1]), if_neg (by simp [e2]), if_neg (by simp [e3]),
      if_neg (by simp [e4]), if_pos h5]

/-- Witness for C1: the amended theorem applied to `cfgA` / `metaA`. -/
theorem verifyMetadata_characterization_witness :
    verifyMetadata cfgA metaA =
      some ⟨"NumUnits", ">= " ++ toString cfgA.numUnits,
        toString metaA.NumUnits, cfgA.dataDir⟩ :=
  (verifyMetadata_characterization cfgA metaA).2 rfl rfl rfl rfl (by decide)

/-! ## C2 — status classification -/

/-- C2 counterexample: with the lock free, the disk count equal to the target
and no retained nonce, the claim says `Status` must not report `Completed`,
but the code reports `Completed` without consulting the nonce. -/
theorem statusOf_claim_cex :
    statA.lockHeld = false ∧ statA.nonce = none ∧
    statA.diskNumLabelsWritten = some (statusTarget statA) ∧
    statusOf statA = .completed := by
  refine ⟨rfl, rfl, by decide, by decide⟩

/-- C2 (amended): when the lock is held `Status` reports `Initializing`;
otherwise it classifies the recomputed disk count: `Error` when the disk
inspection fails, `Completed` exactly when the count equals
`num_units * labels_per_unit` (as wrapping `uint64` arithmetic) regardless of
whether a nonce is retained, `Started` exactly when the count is nonzero and
different from the target, and `NotStarted` exactly when the count is zero
and the target is not.  The retained nonce is never consulted. -/
theorem statusOf_classification (s : StatusInputs) :
    (s.lockHeld = true → statusOf s = .initializing) ∧
    (s.lockHeld = false → s.diskNumLabelsWritten = none →
      statusOf s = .error) ∧
    (∀ n, s.lockHeld = false → s.diskNumLabelsWritten = some n →
      ((statusOf s = .completed ↔ n = statusTarget s) ∧
       (statusOf s = .started ↔ n ≠ statusTarget s ∧ 0 < n) ∧
       (statusOf s = .notStarted ↔ n = 0 ∧ statusTarget s ≠ 0))) ∧
    (∀ p, statusOf { s with nonce := p } = statusOf s) := by
  refine ⟨fun h => by simp [statusOf, h], fun h1 h2 => by simp [statusOf, h1, h2],
    fun n h1 h2 => ?_, fun p => rfl⟩
  have e1 : statusOf s = (if n = statusTarget s then Status.completed
      else if n > 0 then Status.started else Status.notStarted) := by
    simp [statusOf, h1, h2]
  rw [e1]
  by_cases hc : n = statusTarget s
  · rw [if_pos hc]
    exact ⟨iff_of_true rfl hc,
      iff_of_false (by decide) (fun h => h.1 hc),
      iff_of_false (by decide) (fun h => h.2 (by omega))⟩
  · rw [if_neg hc]
    by_cases hz : n > 0
    · rw [if_pos hz]
      exact ⟨iff_of_false (by decide) hc,
        iff_of_true rfl ⟨hc, hz⟩,
        iff_of_false (by decide) (fun h => by omega)⟩
    · rw [if_neg hz]
      exact ⟨iff_of_false (by decide) hc,
        iff_of_false (by decide) (fun h => hz h.2),
        iff_of_true rfl ⟨by omega, fun ht => hc (by omega)⟩⟩

/-- Witness for C2: the amended theorem applied to `statB`
(count 5, target 6, lock free). -/
theorem statusOf_classification_witness : statusOf statB = .started :=
  (((statusOf_classification statB).2.2.1 5 rfl rfl).2.1).mpr
    ⟨by decide, by decide⟩

/-! ## C7 — fail-fast locking -/

/-- C7: when the exclusive lock is held, `Initialize` returns
`ErrAlreadyInitializing` and `Reset` returns
`ErrCannotResetWhileInitializing`, each with the instance state untouched;
when the lock is free, each runs its body and the deferred unlock releases
the lock on every return path. -/
theorem lock_fail_fast {σ α : Type} (body : σ → α × σ) (s : LockedState σ) :
    (s.locked = true →
      InitializeCall body s = (Sum.inl .alreadyInitializing, s) ∧
      ResetCall body s = (Sum.inl .cannotResetWhileInitializing, s)) ∧
    (s.locked = false →
      (InitializeCall body s).2.locked = false ∧
      (ResetCall body s).2.locked = false ∧
      (InitializeCall body s).2.inner = (body s.inner).2 ∧
      (ResetCall body s).2.inner = (body s.inner).2) := by
  constructor <;> intro h <;>
    simp [InitializeCall, ResetCall, tryLocked, h]

/-- Witness for C7: both lock outcomes at a concrete body and state. -/
theorem lock_fail_fast_witness :
    InitializeCall (fun n : Nat => ((), n + 1)) ⟨true, 0⟩ =
      (Sum.inl LockErr.alreadyInitializing, ⟨true, 0⟩) ∧
    (InitializeCall (fun n : Nat => ((), n + 1)) ⟨false, 0⟩).2.locked = false :=
  ⟨((lock_fail_fast (fun n : Nat => ((), n + 1)) ⟨true, 0⟩).1 rfl).1,
   ((lock_fail_fast (fun n : Nat => ((), n + 1)) ⟨false, 0⟩).2 rfl).1⟩

/-! ## C9 — numUnits flag narrowing -/

/-- C9: the value of the `-numUnits` flag is silently narrowed from `uint64`
to `uint32`: the configured number of units is the flag value mod `2^32`,
values below `2^32` pass through unchanged, and any value at least `2^32`
wraps to a strictly smaller value without an error. -/
theorem numUnits_flag_narrowing (v : Nat) :
    configuredNumUnits v = v % U32 ∧
    (v < U32 → configuredNumUnits v = v) ∧
    (U32 ≤ v → configuredNumUnits v < U32 ∧ configuredNumUnits v < v ∧
      configuredNumUnits v ≠ v) := by
  have h1 : v % U32 < U32 := Nat.mod_lt _ (by decide)
  refine ⟨rfl, fun h => Nat.mod_eq_of_lt h, fun h => ?_⟩
  refine ⟨h1, lt_of_lt_of_le h1 h, ?_⟩
  have := lt_of_lt_of_le h1 h
  unfold configuredNumUnits goUint32
  omega

/-- Witness for C9: `2^32 + 5` configures 5 units. -/
theorem numUnits_flag_narrowing_witness :
    configuredNumUnits 4294967301 < 4294967301 ∧
    configuredNumUnits 4294967301 ≠ 4294967301 :=
  ⟨((numUnits_flag_narrowing 4294967301).2.2 (by decide)).2.1,
   ((numUnits_flag_narrowing 4294967301).2.2 (by decide)).2.2⟩

/-! ## C6 — provider range partitioning -/

theorem int_le_sub_one {k m : Nat} : (k : Int) ≤ (m : Int) - 1 ↔ k + 1 ≤ m := by
  omega

theorem inPartition_nonlast {F N w k : Nat} (hw : w ≠ N - 1) :
    inPartition F N w k ↔
      w * (F / N) ≤ k ∧ k + 1 ≤ (w + 1) * (F / N) := by
  unfold inPartition fromFileIdx toFileIdx eachFiles
  rw [if_neg hw]
  constructor
  · rintro ⟨h1, h2⟩
    exact ⟨by exact_mod_cast h1, int_le_sub_one.mp h2⟩
  · rintro ⟨h1, h2⟩
    exact ⟨by exact_mod_cast h1, int_le_sub_one.mpr h2⟩

theorem inPartition_last {F N k : Nat} :
    inPartition F N (N - 1) k ↔ (N - 1) * (F / N) ≤ k ∧ k + 1 ≤ F := by
  unfold inPartition fromFileIdx toFileIdx eachFiles
  rw [if_pos rfl]
  constructor
  · rintro ⟨h1, h2⟩
    exact ⟨by exact_mod_cast h1, int_le_sub_one.mp h2⟩
  · rintro ⟨h1, h2⟩
    exact ⟨by exact_mod_cast h1, int_le_sub_one.mpr h2⟩

theorem partition_cover_unique (F N : Nat) (hN : 1 ≤ N) (k : Nat)
    (hk : k < F) : ∃! w, w < N ∧ inPartition F N w k := by
  by_cases hc : k < (N - 1) * (F / N)
  · have he0 : 0 < F / N := by
      rcases Nat.eq_zero_or_pos (F / N) with h | h
      · rw [h, Nat.mul_zero] at hc; omega
      · exact h
    have hwlt : k / (F / N) < N - 1 := (Nat.div_lt_iff_lt_mul he0).mpr hc
    have hup : k + 1 ≤ (k / (F / N) + 1) * (F / N) := by
      have h := Nat.lt_mul_div_succ k he0
      rw [Nat.mul_comm] at h
      exact h
    refine ⟨k / (F / N), ⟨by omega, (inPartition_nonlast (by omega)).mpr
      ⟨Nat.div_mul_le_self _ _, hup⟩⟩, ?_⟩
    rintro w' ⟨hw'N, hmem⟩
    by_cases hlast : w' = N - 1
    · rw [hlast] at hmem
      exact absurd hc (Nat.not_lt.mpr (inPartition_last.mp hmem).1)
    · have hm := (inPartition_nonlast hlast).mp hmem
      exact (Nat.div_eq_of_lt_le hm.1 hm.2).symm
  · push_neg at hc
    refine ⟨N - 1, ⟨by omega, inPartition_last.mpr ⟨hc, by omega⟩⟩, ?_⟩
    rintro w' ⟨hw'N, hmem⟩
    by_cases hlast : w' = N - 1
    · exact hlast
    · exfalso
      have hm := (inPartition_nonlast hlast).mp hmem
      have h1 : (w' + 1) * (F / N) ≤ (N - 1) * (F / N) :=
        Nat.mul_le_mul_right _ (by omega)
      have h2 : k + 1 ≤ k := le_trans hm.2 (le_trans h1 hc)
      omega

/-- C6: for `N ≥ 1` providers and `F` total files, provider `w < N-1` gets the
inclusive range `[w*(F/N), (w+1)*(F/N)-1]` and the last provider gets
`[(N-1)*(F/N), F-1]`; consecutive ranges are contiguous, non-last ranges have
size `F/N`, the last receives the remainder, and every file index in `[0, F)`
belongs to exactly one provider's range. -/
theorem partition_ranges_correct (F N : Nat) (hN : 1 ≤ N) :
    (∀ w, w < N - 1 →
      fromFileIdx F N w = ((w * (F / N) : Nat) : Int) ∧
      toFileIdx F N w = (((w + 1) * (F / N) : Nat) : Int) - 1 ∧
      toFileIdx F N w - fromFileIdx F N w + 1 = ((F / N : Nat) : Int)) ∧
    (fromFileIdx F N (N - 1) = (((N - 1) * (F / N) : Nat) : Int) ∧
     toFileIdx F N (N - 1) = (F : Int) - 1 ∧
     toFileIdx F N (N - 1) - fromFileIdx F N (N - 1) + 1 =
       (F : Int) - (((N - 1) * (F / N) : Nat) : Int)) ∧
    (∀ w, w + 1 < N → fromFileIdx F N (w + 1) = toFileIdx F N w + 1) ∧
    (∀ k, k < F → ∃! w, w < N ∧ inPartition F N w k) := by
  refine ⟨?_, ⟨rfl, ?_, ?_⟩, ?_, partition_cover_unique F N hN⟩
  · intro w hw
    have hwne : w ≠ N - 1 := by omega
    refine ⟨rfl, by simp [toFileIdx, eachFiles, hwne], ?_⟩
    simp only [toFileIdx, fromFileIdx, eachFiles, if_neg hwne]
    push_cast
    ring
  · simp [toFileIdx]
  · have hto : toFileIdx F N (N - 1) = (F : Int) - 1 := by simp [toFileIdx]
    have hfrom : fromFileIdx F N (N - 1) = (((N - 1) * (F / N) : Nat) : Int) :=
      rfl
    rw [hto, hfrom]
    ring
  · intro w hw
    have hwne : w ≠ N - 1 := by omega
    simp only [toFileIdx, fromFileIdx, eachFiles, if_neg hwne]
    push_cast
    ring

/-- Witness for C6: 2 providers over 5 files — index 3 lies in exactly one
range, and the second range starts right after the first ends. -/
theorem partition_ranges_correct_witness :
    (∃! w, w < 2 ∧ inPartition 5 2 w 3) ∧
    fromFileIdx 5 2 1 = toFileIdx 5 2 0 + 1 :=
  ⟨(partition_ranges_correct 5 2 (by norm_num)).2.2.2 3 (by norm_num),
   (partition_ranges_correct 5 2 (by norm_num)).2.2.1 0 (by norm_num)⟩

/-! ## C4 — best-nonce retention -/

theorem nonceStep_none_eq (c : Candidate) : nonceStep none c = some c := rfl

theorem nonceStep_some_lt {b c : Candidate} (h : bytesLt c.val b.val = true) :
    nonceStep (some b) c = some c := by
  simp [nonceStep, nonceBetterVal, h]

theorem nonceStep_some_ge {b c : Candidate} (h : bytesLt c.val b.val = false) :
    nonceStep (some b) c = some b := by
  simp [nonceStep, nonceBetterVal, h]

theorem nonceFoldFrom_min (cs : List Candidate) (acc : Candidate) :
    ∃ r, cs.foldl nonceStep (some acc) = some r ∧ (r = acc ∨ r ∈ cs) ∧
      bytesLe r.val acc.val = true ∧ ∀ c ∈ cs, bytesLe r.val c.val = true := by
  induction cs generalizing acc with
  | nil => exact ⟨acc, rfl, Or.inl rfl, bytesLe_refl _, by simp⟩
  | cons c cs ih =>
    by_cases h : bytesLt c.val acc.val = true
    · rcases ih c with ⟨r, hr1, hr2, hr3, hr4⟩
      refine ⟨r, ?_, ?_, ?_, ?_⟩
      · rw [List.foldl_cons, nonceStep_some_lt h]; exact hr1
      · rcases hr2 with h2 | h2
        · exact Or.inr (by simp [h2])
        · exact Or.inr (List.mem_cons_of_mem _ h2)
      · exact bytesLe_trans hr3 (bytesLt_le h)
      · intro d hd
        rcases List.mem_cons.mp hd with rfl | hd
        · exact hr3
        · exact hr4 d hd
    · have hb : bytesLt c.val acc.val = false := by simpa using h
      rcases ih acc with ⟨r, hr1, hr2, hr3, hr4⟩
      refine ⟨r, ?_, ?_, hr3, ?_⟩
      · rw [List.foldl_cons, nonceStep_some_ge hb]; exact hr1
      · rcases hr2 with h2 | h2
        · exact Or.inl h2
        · exact Or.inr (List.mem_cons_of_mem _ h2)
      · intro d hd
        rcases List.mem_cons.mp hd with rfl | hd
        · exact bytesLe_trans hr3 (by simp [bytesLe, hb])
        · exact hr4 d hd

theorem nonceFold_min (cs : List Candidate) (h : cs ≠ []) :
    ∃ b, nonceFold cs = some b ∧ b ∈ cs ∧
      ∀ c ∈ cs, bytesLe b.val c.val = true := by
  cases cs with
  | nil => exact absurd rfl h
  | cons c cs =>
    rcases nonceFoldFrom_min cs c with ⟨r, hr1, hr2, hr3, hr4⟩
    refine ⟨r, ?_, ?_, ?_⟩
    · unfold nonceFold
      rw [List.foldl_cons, nonceStep_none_eq]
      exact hr1
    · rcases hr2 with h2 | h2
      · simp [h2]
      · exact List.mem_cons_of_mem _ h2
    · intro d hd
      rcases List.mem_cons.mp hd with rfl | hd
      · exact hr3
      · exact hr4 d hd

theorem nonceFold_append_one (cs : List Candidate) (c : Candidate) :
    nonceFold (cs ++ [c]) = nonceStep (nonceFold cs) c := by
  unfold nonceFold
  rw [List.foldl_append]
  rfl

theorem nonceFold_perm {cs cs2 : List Candidate} (h : cs.Perm cs2) :
    (nonceFold cs).map Candidate.val = (nonceFold cs2).map Candidate.val := by
  by_cases hn : cs = []
  · subst hn
    rw [h.symm.eq_nil]
  · have hn2 : cs2 ≠ [] := by
      intro h2
      subst h2
      exact hn h.eq_nil
    rcases nonceFold_min cs hn with ⟨b1, hf1, hm1, hb1⟩
    rcases nonceFold_min cs2 hn2 with ⟨b2, hf2, hm2, hb2⟩
    have h12 : bytesLe b1.val b2.val = true := hb1 b2 (h.mem_iff.mpr hm2)
    have h21 : bytesLe b2.val b1.val = true := hb2 b1 (h.mem_iff.mp hm1)
    rw [hf1, hf2]
    simp [bytesLe_antisymm h12 h21]

/-- C4: the retained best nonce is replaced exactly when no best is retained
yet or the candidate's 16-byte value is byte-wise strictly smaller; on every
replacement a metadata save carrying the new position and value is issued
immediately (recording the position durably when the save succeeds) and
nothing happens otherwise; consequently the retained value is non-increasing
over time, and for every nonempty candidate sequence the retained candidate
is a byte-wise minimum of all candidates observed, the same value for every
arrival order. -/
theorem nonce_retention_correct :
    (∀ c, nonceStep none c = some c) ∧
    (∀ b c, bytesLt c.val b.val = true → nonceStep (some b) c = some c) ∧
    (∀ b c, bytesLt c.val b.val = false → nonceStep (some b) c = some b) ∧
    (∀ (ok : Bool) (startPos : Nat) (res : OracleRes) (st : InitState)
        (n : Nat), res.nonce = some n →
      (nonceBetterVal st.nonceValue
          ((res.output.drop ((n - startPos) * 16)).take 16) = true →
        applyCandidate ok startPos res st =
          ({ st with
              nonceValue := some ((res.output.drop ((n - startPos) * 16)).take 16),
              nonce := some n,
              persistedNonce := if ok then some n else st.persistedNonce },
           [Ev.saveMeta (some n)
              (some ((res.output.drop ((n - startPos) * 16)).take 16)) ok])) ∧
      (nonceBetterVal st.nonceValue
          ((res.output.drop ((n - startPos) * 16)).take 16) = false →
        applyCandidate ok startPos res st = (st, []))) ∧
    (∀ cs c b, nonceFold cs = some b →
      ∃ b2, nonceFold (cs ++ [c]) = some b2 ∧ bytesLe b2.val b.val = true) ∧
    (∀ cs : List Candidate, cs ≠ [] →
      ∃ b, nonceFold cs = some b ∧ b ∈ cs ∧
        ∀ c ∈ cs, bytesLe b.val c.val = true) ∧
    (∀ cs cs2 : List Candidate, cs.Perm cs2 →
      (nonceFold cs).map Candidate.val = (nonceFold cs2).map Candidate.val) := by
  refine ⟨nonceStep_none_eq, fun b c h => nonceStep_some_lt h,
    fun b c h => nonceStep_some_ge h, ?_, ?_, nonceFold_min,
    fun cs cs2 h => nonceFold_perm h⟩
  · intro ok startPos res st n hres
    constructor
    · intro hbet
      cases ok <;> simp [applyCandidate, hres, hbet]
    · intro hbet
      simp [applyCandidate, hres, hbet]
  · intro cs c b hb
    rw [nonceFold_append_one, hb]
    by_cases h : bytesLt c.val b.val = true
    · exact ⟨c, nonceStep_some_lt h, bytesLt_le h⟩
    · have hf : bytesLt c.val b.val = false := by simpa using h
      exact ⟨b, nonceStep_some_ge hf, bytesLe_refl _⟩

/-- Witness for C4: a concrete three-candidate sequence whose retained nonce
is the byte-wise minimum. -/
theorem nonce_retention_correct_witness :
    ∃ b, nonceFold [⟨5, [2, 2]⟩, ⟨7, [1, 9]⟩, ⟨9, [3, 0]⟩] = some b ∧
      b ∈ [(⟨5, [2, 2]⟩ : Candidate), ⟨7, [1, 9]⟩, ⟨9, [3, 0]⟩] ∧
      ∀ c ∈ [(⟨5, [2, 2]⟩ : Candidate), ⟨7, [1, 9]⟩, ⟨9, [3, 0]⟩],
        bytesLe b.val c.val = true :=
  nonce_retention_correct.2.2.2.2.2.1
    [⟨5, [2, 2]⟩, ⟨7, [1, 9]⟩, ⟨9, [3, 0]⟩] (by simp)

/-! ## C5 — resumable file writing -/

theorem applyCandidate_fileData (ok : Bool) (sp : Nat) (res : OracleRes)
    (st : InitState) :
    (applyCandidate ok sp res st).1.fileData = st.fileData := by
  unfold applyCandidate
  cases res.nonce with
  | none => rfl
  | some n =>
    dsimp only
    split_ifs <;> rfl

theorem initFileLoop_completes (oracle : Nat → Nat → Option OracleRes)
    (cancel saveOk : Nat → Bool) (fileOffset fileNumLabels : Nat)
    (hcancel : ∀ p, cancel p = false)
    (horacle : ∀ s e, ∃ r, oracle s e = some r ∧
      r.output.length = 16 * (e + 1 - s)) :
    ∀ fuel batchSize pos st,
      0 < batchSize → pos ≤ fileNumLabels → fileNumLabels - pos < fuel →
      st.fileData.length = 16 * pos →
      ∃ st2 evs suffix,
        initFileLoop oracle cancel saveOk fileOffset fileNumLabels fuel
          batchSize pos st = (.ok, st2, evs) ∧
        st2.fileData = st.fileData ++ suffix ∧
        st2.fileData.length = 16 * fileNumLabels ∧
        (pos < fileNumLabels →
          st2.numLabelsWritten = fileOffset + fileNumLabels) ∧
        (pos = fileNumLabels → st2 = st) := by
  intro fuel
  induction fuel with
  | zero =>
    intro batchSize pos st _ _ h3 _
    omega
  | succ fuel ih =>
    intro batchSize pos st hbs hle hfuel hlen
    by_cases hpos : pos < fileNumLabels
    · obtain ⟨b2, hb2⟩ : ∃ b2, (if fileNumLabels - pos < batchSize
          then fileNumLabels - pos else batchSize) = b2 := ⟨_, rfl⟩
      have hb2pos : 0 < b2 := by rw [← hb2]; split <;> omega
      have hb2le : pos + b2 ≤ fileNumLabels := by rw [← hb2]; split <;> omega
      rcases horacle (fileOffset + pos) (fileOffset + pos + b2 - 1) with
        ⟨res, hres, hrlen⟩
      have hrlen2 : res.output.length = 16 * b2 := by
        rw [hrlen]; congr 1; omega
      rcases ih b2 (pos + b2)
          { (applyCandidate (saveOk pos) (fileOffset + pos) res st).1 with
            fileData :=
              (applyCandidate (saveOk pos) (fileOffset + pos) res st).1.fileData
                ++ res.output,
            numLabelsWritten := fileOffset + pos + b2 }
          hb2pos hb2le (by omega)
          (by simp [applyCandidate_fileData, hlen, hrlen2]; ring) with
        ⟨st3, evs3, suf3, hrec, hsuf, hlen3, hnlw, hid⟩
      refine ⟨st3,
        Ev.oracleCall (fileOffset + pos) (fileOffset + pos + b2 - 1) ::
          (applyCandidate (saveOk pos) (fileOffset + pos) res st).2 ++
          [Ev.write res.output] ++ evs3,
        res.output ++ suf3, ?_, ?_, hlen3, ?_, fun h => by omega⟩
      · simp only [initFileLoop, if_pos hpos, hcancel pos, Bool.false_eq_true,
          if_false, hb2, hres]
        rw [hrec]
      · rw [hsuf]
        simp [applyCandidate_fileData, List.append_assoc]
      · intro _
        rcases Nat.lt_or_ge (pos + b2) fileNumLabels with hlt | hge
        · exact hnlw hlt
        · have heq : pos + b2 = fileNumLabels := by omega
          rw [hid heq]
          dsimp only
          omega
    · have hpe : pos = fileNumLabels := by omega
      refine ⟨st, [Ev.flush], [], ?_, by simp, by rw [hlen, hpe], ?_,
        fun _ => rfl⟩
      · simp only [initFileLoop, if_neg hpos]
      · intro h
        omega

/-- C5: on resume, `initFile` reads the file's written-label count and
behaves in exactly one of three ways — equal to the target: a no-op returning
the state with only the progress counter set (no events at all); above the
target: truncation to exactly the target label count with no oracle call
(labels are never re-derived); below the target: batches are written from
the current offset (the existing prefix untouched) until the written count
reaches exactly the target. -/
theorem initFile_resume_trichotomy (oracle : Nat → Nat → Option OracleRes)
    (cancel saveOk : Nat → Bool)
    (fileOffset fileNumLabels batchSize fuel : Nat) (st : InitState) :
    (numLabelsInFile st.fileData = fileNumLabels →
      initFile oracle cancel saveOk fileOffset fileNumLabels batchSize fuel
        st = (.ok, { st with numLabelsWritten := fileOffset + fileNumLabels },
        [])) ∧
    (numLabelsInFile st.fileData > fileNumLabels →
      initFile oracle cancel saveOk fileOffset fileNumLabels batchSize fuel
        st = (.ok, { st with
          fileData := st.fileData.take (fileNumLabels * 16),
          numLabelsWritten := fileOffset + fileNumLabels },
        [Ev.truncate fileNumLabels]) ∧
      ∀ s e, Ev.oracleCall s e ∉
        (initFile oracle cancel saveOk fileOffset fileNumLabels batchSize fuel
          st).2.2) ∧
    (numLabelsInFile st.fileData < fileNumLabels →
      (∀ p, cancel p = false) →
      (∀ s e, ∃ r, oracle s e = some r ∧
        r.output.length = 16 * (e + 1 - s)) →
      0 < batchSize → 16 ∣ st.fileData.length →
      fileNumLabels - numLabelsInFile st.fileData < fuel →
      (initFile oracle cancel saveOk fileOffset fileNumLabels batchSize fuel
        st).1 = .ok ∧
      numLabelsInFile (initFile oracle cancel saveOk fileOffset fileNumLabels
        batchSize fuel st).2.1.fileData = fileNumLabels ∧
      (∃ suffix, (initFile oracle cancel saveOk fileOffset fileNumLabels
        batchSize fuel st).2.1.fileData = st.fileData ++ suffix) ∧
      (initFile oracle cancel saveOk fileOffset fileNumLabels batchSize fuel
        st).2.1.numLabelsWritten = fileOffset + fileNumLabels) := by
  refine ⟨?_, ?_, ?_⟩
  · intro h
    simp only [initFile, if_pos h]
  · intro h
    have hne : ¬ numLabelsInFile st.fileData = fileNumLabels := by omega
    constructor
    · simp only [initFile, if_neg hne, if_pos h]
    · intro s e
      simp only [initFile, if_neg hne, if_pos h]
      simp
  · intro h hcancel horacle hbs hdvd hfuel
    have hlen : st.fileData.length = 16 * numLabelsInFile st.fileData := by
      unfold numLabelsInFile
      omega
    have hne : ¬ numLabelsInFile st.fileData = fileNumLabels := by omega
    have hng : ¬ numLabelsInFile st.fileData > fileNumLabels := by omega
    rcases initFileLoop_completes oracle cancel saveOk fileOffset fileNumLabels
        hcancel horacle fuel batchSize (numLabelsInFile st.fileData) st hbs
        (by omega) hfuel hlen with
      ⟨st2, evs, suffix, hrun, hsuf, hlen2, hnlw, _⟩
    have hinit : initFile oracle cancel saveOk fileOffset fileNumLabels
        batchSize fuel st = (.ok, st2, evs) := by
      simp only [initFile, if_neg hne, if_neg hng]
      exact hrun
    rw [hinit]
    refine ⟨rfl, ?_, ⟨suffix, hsuf⟩, hnlw h⟩
    show numLabelsInFile st2.fileData = fileNumLabels
    unfold numLabelsInFile
    omega

/-- Witness for C5: a file already holding its single target label resumes as
a no-op, and a two-label file with target one is truncated. -/
theorem initFile_resume_trichotomy_witness :
    initFile oracleB noCancel noSave 0 1 1 2 stOne =
      (.ok, { stOne with numLabelsWritten := 0 + 1 }, []) ∧
    initFile oracleB noCancel noSave 0 1 1 2 stTwo =
      (.ok, { stTwo with
          fileData := stTwo.fileData.take (1 * 16),
          numLabelsWritten := 0 + 1 },
        [Ev.truncate 1]) :=
  ⟨(initFile_resume_trichotomy oracleB noCancel noSave 0 1 1 2 stOne).1
      (by decide),
   ((initFile_resume_trichotomy oracleB noCancel noSave 0 1 1 2 stTwo).2.1
      (by decide)).1⟩

/-! ## C10 — discarded metadata-save errors -/

theorem stripPersist_eq_iff {st st2 : InitState} :
    stripPersist st = stripPersist st2 ↔
      st.nonceValue = st2.nonceValue ∧ st.nonce = st2.nonce ∧
      st.numLabelsWritten = st2.numLabelsWritten ∧
      st.fileData = st2.fileData := by
  simp [stripPersist, InitState.mk.injEq]

theorem applyCandidate_saveOk_indep (a b : Bool) (sp : Nat) (res : OracleRes)
    (st st2 : InitState) (h : stripPersist st = stripPersist st2) :
    stripPersist (applyCandidate a sp res st).1 =
      stripPersist (applyCandidate b sp res st2).1 ∧
    (applyCandidate a sp res st).2.map stripEv =
      (applyCandidate b sp res st2).2.map stripEv := by
  obtain ⟨h1, h2, h3, h4⟩ := stripPersist_eq_iff.mp h
  unfold applyCandidate
  cases res.nonce with
  | none => exact ⟨h, rfl⟩
  | some n =>
    dsimp only
    rw [h1]
    by_cases hc : nonceBetterVal st2.nonceValue
        ((res.output.drop ((n - sp) * 16)).take 16) = true
    · rw [if_pos hc, if_pos hc]
      cases a <;> cases b <;>
        exact ⟨stripPersist_eq_iff.mpr ⟨rfl, rfl, h3, h4⟩, rfl⟩
    · rw [if_neg hc, if_neg hc]
      exact ⟨h, rfl⟩

theorem initFileLoop_saveOk_indep (oracle : Nat → Nat → Option OracleRes)
    (cancel saveOk1 saveOk2 : Nat → Bool) (fileOffset fileNumLabels : Nat) :
    ∀ fuel batchSize pos st st2, stripPersist st = stripPersist st2 →
      (initFileLoop oracle cancel saveOk1 fileOffset fileNumLabels fuel
        batchSize pos st).1 =
      (initFileLoop oracle cancel saveOk2 fileOffset fileNumLabels fuel
        batchSize pos st2).1 ∧
      stripPersist (initFileLoop oracle cancel saveOk1 fileOffset fileNumLabels
        fuel batchSize pos st).2.1 =
      stripPersist (initFileLoop oracle cancel saveOk2 fileOffset fileNumLabels
        fuel batchSize pos st2).2.1 ∧
      (initFileLoop oracle cancel saveOk1 fileOffset fileNumLabels fuel
        batchSize pos st).2.2.map stripEv =
      (initFileLoop oracle cancel saveOk2 fileOffset fileNumLabels fuel
        batchSize pos st2).2.2.map stripEv := by
  intro fuel
  induction fuel with
  | zero => intro _ _ st st2 h; exact ⟨rfl, h, rfl⟩
  | succ fuel ih =>
    intro batchSize pos st st2 h
    by_cases hpos : pos < fileNumLabels
    · cases hcan : cancel pos with
      | true =>
        simp only [initFileLoop, if_pos hpos, hcan, if_true]
        exact ⟨trivial, h, trivial⟩
      | false =>
        simp only [initFileLoop, if_pos hpos, hcan, Bool.false_eq_true,
          if_false]
        cases hor : oracle (fileOffset + pos)
            (fileOffset + pos + (if fileNumLabels - pos < batchSize
              then fileNumLabels - pos else batchSize) - 1) with
        | none =>
          dsimp only
          exact ⟨rfl, h, rfl⟩
        | some res =>
          dsimp only
          have hac := applyCandidate_saveOk_indep (saveOk1 pos) (saveOk2 pos)
            (fileOffset + pos) res st st2 h
          have hpre := stripPersist_eq_iff.mp hac.1
          have hst : stripPersist
              { (applyCandidate (saveOk1 pos) (fileOffset + pos) res st).1 with
                fileData := (applyCandidate (saveOk1 pos) (fileOffset + pos)
                  res st).1.fileData ++ res.output,
                numLabelsWritten := fileOffset + pos +
                  (if fileNumLabels - pos < batchSize
                    then fileNumLabels - pos else batchSize) } =
              stripPersist
              { (applyCandidate (saveOk2 pos) (fileOffset + pos) res st2).1 with
                fileData := (applyCandidate (saveOk2 pos) (fileOffset + pos)
                  res st2).1.fileData ++ res.output,
                numLabelsWritten := fileOffset + pos +
                  (if fileNumLabels - pos < batchSize
                    then fileNumLabels - pos else batchSize) } :=
            stripPersist_eq_iff.mpr
              ⟨hpre.1, hpre.2.1, rfl, by rw [hpre.2.2.2]⟩
          rcases ih (if fileNumLabels - pos < batchSize
              then fileNumLabels - pos else batchSize)
            (pos + (if fileNumLabels - pos < batchSize
              then fileNumLabels - pos else batchSize)) _ _ hst with
            ⟨e1, e2, e3⟩
          refine ⟨e1, e2, ?_⟩
          simp only [List.map_cons, List.map_append]
          rw [hac.2, e3]
    · simp only [initFileLoop, if_neg hpos]
      exact ⟨trivial, h, trivial⟩

/-- C10: the error result of the metadata save performed when a new best
nonce is found is discarded — the outcome, the resulting state (up to what
was durably persisted) and the event trace (up to save success flags) of
`initFile` do not depend on whether the saves succeed; concretely, a run in
which every save fails still returns success with the improved nonce and its
value retained in memory while nothing was durably recorded. -/
theorem saveMetadata_error_discarded :
    (∀ (oracle : Nat → Nat → Option OracleRes)
      (cancel saveOk1 saveOk2 : Nat → Bool)
      (fileOffset fileNumLabels batchSize fuel : Nat) (st : InitState),
      (initFile oracle cancel saveOk1 fileOffset fileNumLabels batchSize fuel
        st).1 =
      (initFile oracle cancel saveOk2 fileOffset fileNumLabels batchSize fuel
        st).1 ∧
      stripPersist (initFile oracle cancel saveOk1 fileOffset fileNumLabels
        batchSize fuel st).2.1 =
      stripPersist (initFile oracle cancel saveOk2 fileOffset fileNumLabels
        batchSize fuel st).2.1 ∧
      (initFile oracle cancel saveOk1 fileOffset fileNumLabels batchSize fuel
        st).2.2.map stripEv =
      (initFile oracle cancel saveOk2 fileOffset fileNumLabels batchSize fuel
        st).2.2.map stripEv) ∧
    ((initFile oracleB noCancel noSave 0 1 1 2 stInit).1 = .ok ∧
     (initFile oracleB noCancel noSave 0 1 1 2 stInit).2.1.nonce = some 0 ∧
     (initFile oracleB noCancel noSave 0 1 1 2 stInit).2.1.nonceValue =
       some [3] ∧
     (initFile oracleB noCancel noSave 0 1 1 2 stInit).2.1.persistedNonce =
       none) := by
  constructor
  · intro oracle cancel saveOk1 saveOk2 fileOffset fileNumLabels batchSize
      fuel st
    unfold initFile
    dsimp only
    by_cases h1 : numLabelsInFile st.fileData = fileNumLabels
    · rw [if_pos h1, if_pos h1]
      exact ⟨rfl, rfl, rfl⟩
    · rw [if_neg h1, if_neg h1]
      by_cases h2 : numLabelsInFile st.fileData > fileNumLabels
      · rw [if_pos h2, if_pos h2]
        exact ⟨rfl, rfl, rfl⟩
      · rw [if_neg h2, if_neg h2]
        exact initFileLoop_saveOk_indep oracle cancel saveOk1 saveOk2
          fileOffset fileNumLabels fuel batchSize
          (numLabelsInFile st.fileData) st st rfl
  · exact ⟨rfl, rfl, rfl, rfl⟩

/-! ## C3 and C8 — the extended nonce search -/

theorem searchLoop_stops (oracle : Nat → Nat → Option OracleRes)
    (cancel : Nat → Bool) (batchSize : Nat) :
    ∀ fuel i st,
      ((searchLoop oracle cancel batchSize fuel i st).out = .cancelled ∨
       (searchLoop oracle cancel batchSize fuel i st).out = .oracleErr ∨
       (∃ n, (searchLoop oracle cancel batchSize fuel i st).out =
          .nonceFound n)) →
      (searchLoop oracle cancel batchSize fuel i st).state.lastPosition =
        some (searchLoop oracle cancel batchSize fuel i st).finalIndex := by
  intro fuel
  induction fuel with
  | zero =>
    intro i st h
    rcases h with h | h | ⟨n, h⟩ <;> simp [searchLoop] at h
  | succ fuel ih =>
    intro i st h
    by_cases hlt : i < MaxU64
    · cases hcan : cancel i with
      | true =>
        simp only [searchLoop, if_pos hlt, hcan, if_true]
      | false =>
        simp only [searchLoop, if_pos hlt, hcan, Bool.false_eq_true,
          if_false] at h ⊢
        cases hor : oracle i (i + batchSize - 1) with
        | none => rfl
        | some res =>
          rw [hor] at h
          dsimp only at h ⊢
          cases hn : res.nonce with
          | some n =>
            rw [hn] at h
          | none =>
            rw [hn] at h
            dsimp only at h ⊢
            exact ih ((i + batchSize) % U64)
              { st with lastPosition := some i } h
    · simp only [searchLoop, if_neg hlt] at h
      rcases h with h | h | ⟨n, h⟩ <;> simp at h

/-- C3 counterexample: a run of the extended search that completes the
batches at positions 100 and 110 and is then cancelled at 120 persists only
the position 120 — the positions of the completed batches were never
checkpointed to the metadata file, contradicting per-batch persistence. -/
theorem extendedSearch_checkpoint_cex :
    (continueSearch oracleN cancelAt120 10 100 ⟨none, none⟩ 10).out =
      .cancelled ∧
    100 ∈ (continueSearch oracleN cancelAt120 10 100 ⟨none, none⟩ 10).visited ∧
    110 ∈ (continueSearch oracleN cancelAt120 10 100 ⟨none, none⟩ 10).visited ∧
    ¬ some 100 ∈ ((continueSearch oracleN cancelAt120 10 100 ⟨none, none⟩
        10).persists.map SearchState.lastPosition) ∧
    ¬ some 110 ∈ ((continueSearch oracleN cancelAt120 10 100 ⟨none, none⟩
        10).persists.map SearchState.lastPosition) := by
  refine ⟨rfl, by decide, by decide, by decide, by decide⟩

/-- C3 (amended): during the extended search the current batch position is
recorded in memory before each batch; the metadata file is written once, by
the deferred save, when the extended search returns (cancellation, oracle
error, or nonce found), recording exactly the position of the batch that was
in progress — and not at all if the process dies inside the loop; a restart
whose recorded position is at or past `total_labels` resumes the search from
that position rather than from `total_labels`. -/
theorem extendedSearch_persistence (oracle : Nat → Nat → Option OracleRes)
    (cancel : Nat → Bool) (batchSize numLabels fuel : Nat) (st : SearchState)
    (r : SearchResult)
    (hr : r = continueSearch oracle cancel batchSize numLabels st fuel) :
    (r.out ≠ .fuelOut → r.persists = [r.state]) ∧
    ((r.out = .cancelled ∨ r.out = .oracleErr ∨
        ∃ n, r.out = .nonceFound n) →
      r.state.lastPosition = some r.finalIndex) ∧
    (r.out = .fuelOut → r.persists = []) ∧
    (∀ p, numLabels ≤ p → searchStart (some p) numLabels = p) := by
  subst hr
  refine ⟨?_, ?_, ?_, ?_⟩
  · intro hne
    unfold continueSearch at hne ⊢
    dsimp only at hne ⊢
    rw [if_neg hne]
  · intro h
    unfold continueSearch at h ⊢
    dsimp only at h ⊢
    exact searchLoop_stops oracle cancel batchSize fuel
      (searchStart st.lastPosition numLabels)
      { st with lastPosition := some (searchStart st.lastPosition numLabels) }
      h
  · intro he
    unfold continueSearch at he ⊢
    dsimp only at he ⊢
    rw [if_pos he]
  · intro p hp
    show (if p < numLabels then numLabels else p) = p
    rw [if_neg (by omega)]

/-- Witness for C3: the amended theorem applied to the concrete cancelled
run — one persisted record, holding the in-progress position 120. -/
theorem extendedSearch_persistence_witness :
    (continueSearch oracleN cancelAt120 10 100 ⟨none, none⟩ 10).persists =
      [(continueSearch oracleN cancelAt120 10 100 ⟨none, none⟩ 10).state] ∧
    (continueSearch oracleN cancelAt120 10 100 ⟨none, none⟩
        10).state.lastPosition =
      some (continueSearch oracleN cancelAt120 10 100 ⟨none, none⟩
        10).finalIndex ∧
    searchStart (some 120) 100 = 120 :=
  ⟨(extendedSearch_persistence oracleN cancelAt120 10 100 10 ⟨none, none⟩ _
      rfl).1 (by decide),
   (extendedSearch_persistence oracleN cancelAt120 10 100 10 ⟨none, none⟩ _
      rfl).2.1 (Or.inl (by decide)),
   (extendedSearch_persistence oracleN cancelAt120 10 100 10 ⟨none, none⟩ _
      rfl).2.2.2 120 (by decide)⟩

/-- C8: the extended-search loop returns `NoNonceFound` only when the loop
index has reached `math.MaxUint64`, the upper bound of the 64-bit position
space; in such a run no visited batch was cancelled, none produced an oracle
error, and none reported a nonce (so whenever one of those occurs first the
outcome is not `NoNonceFound`), and no nonce is stored. -/
theorem noNonceFound_only_at_bound (oracle : Nat → Nat → Option OracleRes)
    (cancel : Nat → Bool) (batchSize : Nat) :
    ∀ fuel i st, i < U64 →
      (searchLoop oracle cancel batchSize fuel i st).out = .noNonceFound →
      (searchLoop oracle cancel batchSize fuel i st).finalIndex = U64 - 1 ∧
      (searchLoop oracle cancel batchSize fuel i st).state.nonce = st.nonce ∧
      ∀ p ∈ (searchLoop oracle cancel batchSize fuel i st).visited,
        cancel p = false ∧
        ∃ res, oracle p (p + batchSize - 1) = some res ∧ res.nonce = none := by
  intro fuel
  induction fuel with
  | zero =>
    intro i st _ h
    simp [searchLoop] at h
  | succ fuel ih =>
    intro i st hu h
    by_cases hlt : i < MaxU64
    · cases hcan : cancel i with
      | true =>
        simp only [searchLoop, if_pos hlt, hcan, if_true] at h
        simp at h
      | false =>
        simp only [searchLoop, if_pos hlt, hcan, Bool.false_eq_true,
          if_false] at h ⊢
        cases hor : oracle i (i + batchSize - 1) with
        | none =>
          rw [hor] at h
          simp at h
        | some res =>
          rw [hor] at h
          dsimp only at h ⊢
          cases hn : res.nonce with
          | some n =>
            rw [hn] at h
            simp at h
          | none =>
            rw [hn] at h
            dsimp only at h ⊢
            have hmod : (i + batchSize) % U64 < U64 :=
              Nat.mod_lt _ (by decide)
            rcases ih ((i + batchSize) % U64)
                { st with lastPosition := some i } hmod h with ⟨f1, f2, f3⟩
            refine ⟨f1, f2, ?_⟩
            intro p hp
            rcases List.mem_cons.mp hp with rfl | hp
            · exact ⟨hcan, res, hor, hn⟩
            · exact f3 p hp
    · have heq : searchLoop oracle cancel batchSize (fuel + 1) i st =
          ⟨.noNonceFound, st, i, []⟩ := by
        simp only [searchLoop, if_neg hlt]
      rw [heq]
      have hM : MaxU64 = U64 - 1 := rfl
      refine ⟨by dsimp only; omega, rfl, by simp⟩

/-- Witness for C8: starting the loop at `MaxUint64` itself returns
`NoNonceFound` with the final index at the bound. -/
theorem noNonceFound_only_at_bound_witness :
    (searchLoop oracleN noCancel 10 1 (U64 - 1) ⟨none, none⟩).finalIndex =
      U64 - 1 ∧
    (searchLoop oracleN noCancel 10 1 (U64 - 1) ⟨none, none⟩).state.nonce =
      (⟨none, none⟩ : SearchState).nonce :=
  ⟨(noNonceFound_only_at_bound oracleN noCancel 10 1 (U64 - 1) ⟨none, none⟩
      (by decide) (by decide)).1,
   (noNonceFound_only_at_bound oracleN noCancel 10 1 (U64 - 1) ⟨none, none⟩
      (by decide) (by decide)).2.1⟩

end Post
